import Mathlib

/-!
Verification of FireNet's comment stripper (`src/FireNet/a.py`).

The Python core is
  `pattern = re.compile('(//.*?$)|(/\\*.*?\\*/)', re.MULTILINE | re.DOTALL)`
  `return pattern.sub('', code)`
`re.sub` scans left to right; at each position it tries the line-comment
alternative first, then the block-comment alternative.  The lazy `.*?$`
under MULTILINE stops at the first position where `$` matches, i.e. before
the first `\n` after the marker (or at end of text), so a line comment
never consumes its terminator.  The lazy `.*?\*/` under DOTALL matches
through the first `*/` after the opener.  When neither alternative matches
at a position, the scanner emits the character and advances by one.
We embed texts as `List Char` (Python `str` is a sequence of code points).
-/

namespace FireNet

/-- Does `*/` occur as a two-character substring of `l`?  This is exactly
the condition under which the block alternative `/\*.*?\*/` can match when
the opener `/*` sits immediately before `l`. -/
def hasClose : List Char → Bool
  | [] => false
  | [_] => false
  | a :: b :: rest => (a = '*' && b = '/') || hasClose (b :: rest)

/-- Drop everything through the first occurrence of `*/` in `l`; the lazy
body `.*?\*/` makes the regex resume scanning right after that first
closer. -/
def dropToClose : List Char → List Char
  | [] => []
  | [_] => []
  | a :: b :: rest => if a = '*' && b = '/' then rest else dropToClose (b :: rest)

/-- Drop the (lazy) body of a line comment: everything before the first
`\n`; the `\n` itself is not part of the match because MULTILINE `$` is
zero-width, so it is kept.  If no `\n` follows, drop to end of text. -/
def dropLineBody : List Char → List Char
  | [] => []
  | a :: rest => if a = '\n' then a :: rest else dropLineBody rest

/-- Shallow embedding of `remove_csharp_comments` from `src/FireNet/a.py`:
a single left-to-right scan deleting all non-overlapping matches of
`(//.*?$)|(/\*.*?\*/)` (MULTILINE, DOTALL).  At `//` the match runs to the
first `\n` exclusive (or end of text); at `/*` it runs through the first
`*/` if one exists, and otherwise no alternative matches so the scanner
advances character by character (across the `/` and the `*`). -/
def remove_csharp_comments : List Char → List Char
  | [] => []
  | [c] => [c]
  | c :: d :: rest =>
    if c = '/' && d = '/' then remove_csharp_comments (dropLineBody rest)
    else if c = '/' && d = '*' then
      if hasClose rest then remove_csharp_comments (dropToClose rest)
      else '/' :: '*' :: remove_csharp_comments rest
    else c :: remove_csharp_comments (d :: rest)
termination_by l => l.length
decreasing_by
  · have hlb : ∀ l : List Char, (dropLineBody l).length ≤ l.length := by
      intro l
      induction l with
      | nil => simp [dropLineBody]
      | cons a t ih =>
          by_cases h : a = '\n'
          · simp [dropLineBody, h]
          · simp only [dropLineBody, h, if_false]
            simp
            omega
    have := hlb rest
    simp
    omega
  · have hdc : ∀ l : List Char, (dropToClose l).length ≤ l.length := by
      intro l
      induction l using dropToClose.induct with
      | case1 => simp [dropToClose]
      | case2 => simp [dropToClose]
      | case3 a b r h =>
          simp only [dropToClose, h, if_true]
          simp
          omega
      | case4 a b r h ih =>
          simp only [dropToClose, h, if_false]
          simp at ih ⊢
          omega
    have := hdc rest
    simp
    omega
  · simp
    omega
  · simp

/-- A text on which the pattern has no match at all: no `//` substring and
every `/*` lacks a subsequent `*/`.  Such texts are exactly those the
stripper leaves unchanged. -/
def cleanB : List Char → Bool
  | [] => true
  | [_] => true
  | a :: b :: rest =>
      if a = '/' && b = '/' then false
      else if a = '/' && b = '*' then !hasClose rest && cleanB (b :: rest)
      else cleanB (b :: rest)

/-- The hypothesis of claim C5: the text contains no occurrence of the
two-character sequence `//` and none of `/*`. -/
def noMarker : List Char → Bool
  | [] => true
  | [_] => true
  | a :: b :: rest => !(a = '/' && b = '/') && !(a = '/' && b = '*') && noMarker (b :: rest)

/-!
Model of the driver `process_directory` in `src/FireNet/a.py`.  The walk
is abstracted to the list of directory entries it visits, in order.  Each
entry records the facts the driver's control flow branches on: whether the
file name ends in `.cs`, the text obtained by reading it (`none` when
`open`/`read` raises, which the code catches and skips with `continue`),
whether `os.makedirs` on the mirror directory would succeed (this call is
*outside* any `try` block in the code), and whether the write would
succeed (`open`/`write` failures are caught and only reported). -/
structure FileEntry where
  isCs : Bool
  readResult : Option (List Char)
  mkdirOk : Bool
  writeOk : Bool

/-- Observable side effects of handling one directory entry, in order of
occurrence: an error report for a failed read, a `makedirs` call, a file
write, an error report for a failed write, and the per-file
`Processed: ...` progress line. -/
inductive FileEvent where
  | readErr : FileEvent
  | mkdirs : FileEvent
  | writeFile : FileEvent
  | writeErr : FileEvent
  | processedMsg : FileEvent
deriving DecidableEq

/-- One iteration of the driver's inner loop body for one entry.
`mirror = true` models a run with `output_dir` set.  The result is `none`
when an exception escapes the loop body (only `os.makedirs` can raise
uncaught), and otherwise the list of events together with the increments
to `file_count` and `processed_count`. -/
def process_file (mirror : Bool) (e : FileEntry) :
    Option (List FileEvent × Nat × Nat) :=
  if e.isCs then
    match e.readResult with
    | none => some ([FileEvent.readErr], 1, 0)
    | some content =>
      if remove_csharp_comments content = content then
        some ([FileEvent.processedMsg], 1, 0)
      else
        if mirror then
          if e.mkdirOk then
            some (FileEvent.mkdirs ::
              (if e.writeOk then [FileEvent.writeFile] else [FileEvent.writeErr]) ++
              [FileEvent.processedMsg], 1, 1)
          else none
        else
          some ((if e.writeOk then [FileEvent.writeFile] else [FileEvent.writeErr]) ++
            [FileEvent.processedMsg], 1, 1)
  else some ([], 0, 0)

/-- The driver's walk: fold `process_file` over the visited entries,
accumulating `file_count` and `processed_count`.  `some (fc, pc)` means
the loop finished and the final summary lines were printed with these
counts; `none` means an uncaught exception aborted the walk before the
summary. -/
def walkFiles (mirror : Bool) : List FileEntry → Nat → Nat → Option (Nat × Nat)
  | [], fc, pc => some (fc, pc)
  | e :: rest, fc, pc =>
    match process_file mirror e with
    | none => none
    | some (_, dfc, dpc) => walkFiles mirror rest (fc + dfc) (pc + dpc)

/-- `process_directory` on a valid root: run the walk with both counters
starting at zero. -/
def process_directory (mirror : Bool) (files : List FileEntry) : Option (Nat × Nat) :=
  walkFiles mirror files 0 0

/-- Unfolding: a character that is not `/` can start no alternative, so the
scanner emits it and moves on. -/
theorem rcc_cons_ne (c : Char) (t : List Char) (h : c ≠ '/') :
    remove_csharp_comments (c :: t) = c :: remove_csharp_comments t := by
  cases t with
  | nil => simp [remove_csharp_comments]
  | cons d r => simp [remove_csharp_comments, h]

/-- Unfolding: at `//` the match removes the lazy line body. -/
theorem rcc_line (rest : List Char) :
    remove_csharp_comments ('/' :: '/' :: rest) =
      remove_csharp_comments (dropLineBody rest) := by
  rw [remove_csharp_comments]
  simp

/-- Unfolding: at `/*` with a closer ahead, the match removes through the
first `*/`. -/
theorem rcc_close (rest : List Char) (h : hasClose rest = true) :
    remove_csharp_comments ('/' :: '*' :: rest) =
      remove_csharp_comments (dropToClose rest) := by
  rw [remove_csharp_comments]
  simp [h]

/-- Unfolding: at `/*` with no closer ahead, no alternative matches; the
scanner emits `/` then `*` and resumes. -/
theorem rcc_noclose (rest : List Char) (h : hasClose rest = false) :
    remove_csharp_comments ('/' :: '*' :: rest) =
      '/' :: '*' :: remove_csharp_comments rest := by
  rw [remove_csharp_comments]
  simp [h]

theorem hasClose_cons_cons (a b : Char) (l : List Char) :
    hasClose (a :: b :: l) = ((a = '*' && b = '/') || hasClose (b :: l)) := rfl

theorem hasClose_tail (a : Char) (l : List Char) (h : hasClose (a :: l) = false) :
    hasClose l = false := by
  cases l with
  | nil => simp [hasClose]
  | cons b r =>
      rw [hasClose_cons_cons] at h
      simp at h
      exact h.2

theorem hasClose_dropLineBody (l : List Char) (h : hasClose l = false) :
    hasClose (dropLineBody l) = false := by
  induction l with
  | nil => simpa [dropLineBody] using h
  | cons a rest ih =>
      by_cases ha : a = '\n'
      · simpa [dropLineBody, ha] using h
      · simp only [dropLineBody, ha, if_false]
        exact ih (hasClose_tail a rest h)

/-- No `*/` before the scan point survives stripping: on a text with no
occurrence of `*/`, the output of the stripper again has no `*/`.  (The
only way a new adjacency could form is a deletion between a surviving `*`
and a surviving `/`, and every deleted line comment is followed by `\n` or
end of text.) -/
theorem hasClose_rcc (l : List Char) (h : hasClose l = false) :
    hasClose (remove_csharp_comments l) = false := by
  induction l using remove_csharp_comments.induct with
  | case1 => simpa [remove_csharp_comments] using h
  | case2 c => simpa [remove_csharp_comments] using h
  | case3 c d rest hcd ih =>
      simp at hcd
      obtain ⟨hc, hd⟩ := hcd
      subst hc; subst hd
      rw [rcc_line]
      exact ih (hasClose_dropLineBody rest (hasClose_tail _ _ (hasClose_tail _ _ h)))
  | case4 c d rest hcd1 hcd2 hcl ih =>
      simp at hcd2
      obtain ⟨hc, hd⟩ := hcd2
      subst hc; subst hd
      have : hasClose rest = false := hasClose_tail _ _ (hasClose_tail _ _ h)
      rw [this] at hcl
      exact absurd hcl (by simp)
  | case5 c d rest hcd1 hcd2 hcl ih =>
      simp at hcd2
      obtain ⟨hc, hd⟩ := hcd2
      subst hc; subst hd
      have hclF : hasClose rest = false := by simpa using hcl
      rw [rcc_noclose rest hclF]
      rw [hasClose_cons_cons]
      simp only [Bool.or_eq_false_iff]
      constructor
      · simp
      · cases rest with
        | nil => simp [remove_csharp_comments, hasClose]
        | cons e r =>
            have he : e ≠ '/' := by
              intro he
              subst he
              rw [hasClose_cons_cons] at h
              rw [hasClose_cons_cons] at h
              simp at h
            rw [rcc_cons_ne e r he]
            rw [hasClose_cons_cons]
            simp only [Bool.or_eq_false_iff]
            refine ⟨by simp [he], ?_⟩
            have := ih (hasClose_tail _ _ (hasClose_tail _ _ h))
            rwa [rcc_cons_ne e r he] at this
  | case6 c d rest hcd1 hcd2 ih =>
      have hd : hasClose (d :: rest) = false := hasClose_tail _ _ h
      have ihx := ih hd
      rw [remove_csharp_comments]
      rw [if_neg (by simpa using hcd1), if_neg (by simpa using hcd2)]
      by_cases hc : c = '*'
      · subst hc
        have hdne : d ≠ '/' := by
          intro hdeq
          subst hdeq
          rw [hasClose_cons_cons] at h
          simp at h
        rw [rcc_cons_ne d rest hdne] at ihx ⊢
        rw [hasClose_cons_cons]
        simp [hdne, ihx]
      · cases hrec : remove_csharp_comments (d :: rest) with
        | nil => simp [hasClose]
        | cons e r =>
            rw [hasClose_cons_cons]
            rw [hrec] at ihx
            simp [hc, ihx]

theorem cleanB_cons_ne (a : Char) (l : List Char) (h : a ≠ '/') :
    cleanB (a :: l) = cleanB l := by
  cases l with
  | nil => simp [cleanB]
  | cons b r => simp [cleanB, h]

theorem cleanB_tail (a : Char) (l : List Char) (h : cleanB (a :: l) = true) :
    cleanB l = true := by
  cases l with
  | nil => simp [cleanB]
  | cons b r =>
      by_cases ha : a = '/'
      · subst ha
        by_cases hb : b = '/'
        · subst hb; simp [cleanB] at h
        · by_cases hb2 : b = '*'
          · subst hb2
            simp [cleanB] at h
            exact h.2
          · simpa [cleanB, hb, hb2] using h
      · rwa [cleanB_cons_ne a _ ha] at h

/-- On a match-free text the stripper is the identity. -/
theorem rcc_of_cleanB (l : List Char) (h : cleanB l = true) :
    remove_csharp_comments l = l := by
  induction l using remove_csharp_comments.induct with
  | case1 => simp [remove_csharp_comments]
  | case2 c => simp [remove_csharp_comments]
  | case3 c d rest hcd ih =>
      simp at hcd
      obtain ⟨hc, hd⟩ := hcd
      subst hc; subst hd
      simp [cleanB] at h
  | case4 c d rest hcd1 hcd2 hcl ih =>
      simp at hcd2
      obtain ⟨hc, hd⟩ := hcd2
      subst hc; subst hd
      simp only [cleanB] at h
      simp at h
      rw [h.1] at hcl
      exact absurd hcl (by simp)
  | case5 c d rest hcd1 hcd2 hcl ih =>
      simp at hcd2
      obtain ⟨hc, hd⟩ := hcd2
      subst hc; subst hd
      have hclF : hasClose rest = false := by simpa using hcl
      rw [rcc_noclose rest hclF]
      have hrest : cleanB rest = true :=
        cleanB_tail _ _ (cleanB_tail _ _ h)
      rw [ih hrest]
  | case6 c d rest hcd1 hcd2 ih =>
      have hcc : ¬(c = '/' ∧ d = '/') := by simpa using hcd1
      have hcs : ¬(c = '/' ∧ d = '*') := by simpa using hcd2
      have step : remove_csharp_comments (c :: d :: rest) =
          c :: remove_csharp_comments (d :: rest) := by
        rw [remove_csharp_comments]
        rw [if_neg (by simpa using hcd1), if_neg (by simpa using hcd2)]
      rw [step, ih (cleanB_tail _ _ h)]

/-- The stripper's output is always match-free: no `//` remains, and any
remaining `/*` still has no closer after it. -/
theorem cleanB_rcc (l : List Char) : cleanB (remove_csharp_comments l) = true := by
  induction l using remove_csharp_comments.induct with
  | case1 => simp [remove_csharp_comments, cleanB]
  | case2 c => simp [remove_csharp_comments, cleanB]
  | case3 c d rest hcd ih =>
      simp at hcd
      obtain ⟨hc, hd⟩ := hcd
      subst hc; subst hd
      rw [rcc_line]
      exact ih
  | case4 c d rest hcd1 hcd2 hcl ih =>
      simp at hcd2
      obtain ⟨hc, hd⟩ := hcd2
      subst hc; subst hd
      rw [rcc_close rest (by simpa using hcl)]
      exact ih
  | case5 c d rest hcd1 hcd2 hcl ih =>
      simp at hcd2
      obtain ⟨hc, hd⟩ := hcd2
      subst hc; subst hd
      have hclF : hasClose rest = false := by simpa using hcl
      rw [rcc_noclose rest hclF]
      simp only [cleanB]
      simp only [decide_True, Bool.and_self, if_true]
      have h1 : hasClose (remove_csharp_comments rest) = false :=
        hasClose_rcc rest hclF
      have h2 : cleanB ('*' :: remove_csharp_comments rest) = true := by
        rw [cleanB_cons_ne _ _ (by decide)]
        exact ih
      simp [h1, h2]
  | case6 c d rest hcd1 hcd2 ih =>
      have step : remove_csharp_comments (c :: d :: rest) =
          c :: remove_csharp_comments (d :: rest) := by
        rw [remove_csharp_comments]
        rw [if_neg hcd1, if_neg hcd2]
      rw [step]
      by_cases hc : c = '/'
      · subst hc
        have hd2 : d ≠ '/' ∧ d ≠ '*' := by
          constructor
          · intro hdd; subst hdd; simp at hcd1
          · intro hdd; subst hdd; simp at hcd2
        rw [rcc_cons_ne d rest hd2.1] at ih ⊢
        cases hrec : remove_csharp_comments rest with
        | nil => simp [cleanB, hd2.1, hd2.2]
        | cons e r =>
            rw [hrec] at ih
            simp only [cleanB]
            rw [if_neg (by simp [hd2.1]), if_neg (by simp [hd2.2])]
            exact ih
      · cases hrec : remove_csharp_comments (d :: rest) with
        | nil => simp [cleanB]
        | cons e r =>
            rw [hrec] at ih
            simp only [cleanB]
            rw [if_neg (by simp [hc]), if_neg (by simp [hc])]
            exact ih

/-- Stripping an already-stripped text is a no-op. -/
theorem rcc_idem (l : List Char) :
    remove_csharp_comments (remove_csharp_comments l) = remove_csharp_comments l :=
  rcc_of_cleanB _ (cleanB_rcc l)

theorem dropLineBody_append (body rest : List Char) (h : '\n' ∉ body) :
    dropLineBody (body ++ '\n' :: rest) = '\n' :: rest := by
  induction body with
  | nil => simp [dropLineBody]
  | cons a b ih =>
      have ha : a ≠ '\n' := fun hx => h (hx ▸ List.mem_cons_self a b)
      simp only [List.cons_append, dropLineBody, ha, if_false]
      exact ih (fun hx => h (List.mem_cons_of_mem a hx))

theorem dropLineBody_of_no_newline (body : List Char) (h : '\n' ∉ body) :
    dropLineBody body = [] := by
  induction body with
  | nil => simp [dropLineBody]
  | cons a b ih =>
      have ha : a ≠ '\n' := fun hx => h (hx ▸ List.mem_cons_self a b)
      simp only [dropLineBody, ha, if_false]
      exact ih (fun hx => h (List.mem_cons_of_mem a hx))

/-- Appending an explicit closer after a closer-free body: the text does
contain `*/`. -/
theorem hasClose_append_close (body rest : List Char) :
    hasClose (body ++ '*' :: '/' :: rest) = true := by
  induction body with
  | nil => simp [hasClose_cons_cons]
  | cons a b ih =>
      cases b with
      | nil => simp [hasClose_cons_cons]
      | cons b' r' =>
          simp only [List.cons_append] at ih ⊢
          rw [hasClose_cons_cons, ih]
          simp

/-- The lazy block body stops at the *first* closer: if the body before an
explicit `*/` is closer-free, everything up to and including that `*/` is
dropped and scanning resumes exactly at `rest`. -/
theorem dropToClose_append (body rest : List Char) (h : hasClose body = false) :
    dropToClose (body ++ '*' :: '/' :: rest) = rest := by
  induction body with
  | nil => simp [dropToClose]
  | cons a b ih =>
      cases b with
      | nil =>
          simp only [List.cons_append, List.nil_append, dropToClose]
          have : ¬(a = '*' && ('*' : Char) = '/') = true := by simp
          rw [if_neg this]
          simp [dropToClose]
      | cons b' r' =>
          rw [hasClose_cons_cons] at h
          simp only [Bool.or_eq_false_iff] at h
          simp only [List.cons_append, dropToClose]
          rw [if_neg (by simp_all)]
          exact ih h.2

theorem dropLineBody_sublist (l : List Char) : List.Sublist (dropLineBody l) l := by
  induction l with
  | nil => simp [dropLineBody]
  | cons a b ih =>
      by_cases h : a = '\n'
      · simp [dropLineBody, h]
      · simp only [dropLineBody, h, if_false]
        exact ih.cons a

theorem dropToClose_sublist (l : List Char) : List.Sublist (dropToClose l) l := by
  induction l using dropToClose.induct with
  | case1 => simp [dropToClose]
  | case2 c => simp [dropToClose]
  | case3 a b rest h =>
      simp only [dropToClose, h, if_true]
      exact (List.Sublist.refl rest).cons b |>.cons a
  | case4 a b rest h ih =>
      simp only [dropToClose, h, if_false]
      exact ih.cons a

/-- The stripper only deletes: its output is a subsequence of its input,
so every emitted character is unchanged and in its original relative
order. -/
theorem rcc_sublist (l : List Char) :
    List.Sublist (remove_csharp_comments l) l := by
  induction l using remove_csharp_comments.induct with
  | case1 => simp [remove_csharp_comments]
  | case2 c => simp [remove_csharp_comments]
  | case3 c d rest hcd ih =>
      simp at hcd
      obtain ⟨hc, hd⟩ := hcd
      subst hc; subst hd
      rw [rcc_line]
      exact (ih.trans (dropLineBody_sublist rest)).cons '/' |>.cons '/'
  | case4 c d rest hcd1 hcd2 hcl ih =>
      simp at hcd2
      obtain ⟨hc, hd⟩ := hcd2
      subst hc; subst hd
      rw [rcc_close rest (by simpa using hcl)]
      exact (ih.trans (dropToClose_sublist rest)).cons '*' |>.cons '/'
  | case5 c d rest hcd1 hcd2 hcl ih =>
      simp at hcd2
      obtain ⟨hc, hd⟩ := hcd2
      subst hc; subst hd
      rw [rcc_noclose rest (by simpa using hcl)]
      exact ih.cons₂ '*' |>.cons₂ '/'
  | case6 c d rest hcd1 hcd2 ih =>
      have step : remove_csharp_comments (c :: d :: rest) =
          c :: remove_csharp_comments (d :: rest) := by
        rw [remove_csharp_comments]
        rw [if_neg hcd1, if_neg hcd2]
      rw [step]
      exact ih.cons₂ c

theorem noMarker_cleanB (l : List Char) (h : noMarker l = true) : cleanB l = true := by
  induction l using noMarker.induct with
  | case1 => simp [cleanB]
  | case2 c => simp [cleanB]
  | case3 a b rest ih =>
      simp only [noMarker, Bool.and_eq_true, Bool.not_eq_true'] at h
      obtain ⟨⟨h1, h2⟩, h3⟩ := h
      simp only [cleanB]
      rw [if_neg (by rw [h1]; simp), if_neg (by rw [h2]; simp)]
      exact ih h3

theorem process_file_isCs_delta (mirror : Bool) (e : FileEntry)
    (evs : List FileEvent) (dfc dpc : Nat)
    (h : process_file mirror e = some (evs, dfc, dpc)) :
    dfc = if e.isCs then 1 else 0 := by
  by_cases hcs : e.isCs
  · simp only [process_file, hcs, if_true] at h
    cases hr : e.readResult with
    | none =>
        rw [hr] at h
        simp only [Option.some.injEq, Prod.mk.injEq] at h
        simp [hcs, ← h.2.1]
    | some content =>
        rw [hr] at h
        simp only at h
        by_cases heq : remove_csharp_comments content = content
        · rw [if_pos heq] at h
          simp only [Option.some.injEq, Prod.mk.injEq] at h
          simp [hcs, ← h.2.1]
        · rw [if_neg heq] at h
          by_cases hm : mirror
          · rw [if_pos hm] at h
            by_cases hmk : e.mkdirOk
            · rw [if_pos hmk] at h
              simp only [Option.some.injEq, Prod.mk.injEq] at h
              simp [hcs, ← h.2.1]
            · rw [if_neg hmk] at h; simp at h
          · rw [if_neg hm] at h
            simp only [Option.some.injEq, Prod.mk.injEq] at h
            simp [hcs, ← h.2.1]
  · rw [process_file, if_neg hcs] at h
    simp only [Option.some.injEq, Prod.mk.injEq] at h
    simp [hcs, ← h.2.1]

theorem walkFiles_fst (mirror : Bool) (files : List FileEntry) :
    ∀ (a b fc pc : Nat), walkFiles mirror files a b = some (fc, pc) →
      fc = a + (files.filter (fun e => e.isCs)).length := by
  induction files with
  | nil => intro a b fc pc h; simp [walkFiles] at h; simp [h.1]
  | cons e rest ih =>
      intro a b fc pc h
      simp only [walkFiles] at h
      cases hp : process_file mirror e with
      | none => rw [hp] at h; simp at h
      | some v =>
          obtain ⟨evs, dfc, dpc⟩ := v
          rw [hp] at h
          simp only at h
          have hfc := ih (a + dfc) (b + dpc) fc pc h
          have hd := process_file_isCs_delta mirror e evs dfc dpc hp
          by_cases hcs : e.isCs
          · simp [hcs] at hd
            simp [List.filter, hcs, hfc, hd]
            omega
          · simp [hcs] at hd
            simp [List.filter, hcs, hfc, hd]

theorem walkFiles_isSome (mirror : Bool) (files : List FileEntry)
    (h : mirror = true → ∀ e ∈ files, e.mkdirOk = true) :
    ∀ (a b : Nat), (walkFiles mirror files a b).isSome = true := by
  induction files with
  | nil => intro a b; simp [walkFiles]
  | cons e rest ih =>
      intro a b
      have hrest : mirror = true → ∀ x ∈ rest, x.mkdirOk = true :=
        fun hm x hx => h hm x (List.mem_cons_of_mem e hx)
      have hstep : ∃ v, process_file mirror e = some v := by
        by_cases hcs : e.isCs
        · cases hr : e.readResult with
          | none =>
              exact ⟨([FileEvent.readErr], 1, 0), by simp [process_file, hcs, hr]⟩
          | some content =>
              by_cases heq : remove_csharp_comments content = content
              · exact ⟨([FileEvent.processedMsg], 1, 0),
                  by simp [process_file, hcs, hr, heq]⟩
              · by_cases hm : mirror
                · have hmk : e.mkdirOk = true := h hm e (List.mem_cons_self e rest)
                  exact ⟨(FileEvent.mkdirs ::
                      (if e.writeOk then [FileEvent.writeFile] else [FileEvent.writeErr]) ++
                      [FileEvent.processedMsg], 1, 1),
                    by simp [process_file, hcs, hr, heq, hm, hmk]⟩
                · exact ⟨((if e.writeOk then [FileEvent.writeFile] else [FileEvent.writeErr]) ++
                      [FileEvent.processedMsg], 1, 1),
                    by simp [process_file, hcs, hr, heq, hm]⟩
        · exact ⟨([], 0, 0), by simp [process_file, hcs]⟩
      obtain ⟨⟨evs, dfc, dpc⟩, hv⟩ := hstep
      simp only [walkFiles, hv]
      exact ih hrest (a + dfc) (b + dpc)

/-- C1: a line comment removed by the stripper spans from the `//` marker
up to but not including the next line terminator (or to end of text when
none follows); the terminator itself is preserved in the output; in
particular stripping `"a(); // note\nb();"` gives `"a(); \nb();"`. -/
theorem claim_C1 (body rest : List Char) (h : '\n' ∉ body) :
    remove_csharp_comments ('/' :: '/' :: (body ++ '\n' :: rest)) =
      '\n' :: remove_csharp_comments rest ∧
    remove_csharp_comments ('/' :: '/' :: body) = [] ∧
    remove_csharp_comments ("a(); // note\nb();".toList) = "a(); \nb();".toList := by
  refine ⟨?_, ?_, ?_⟩
  · rw [rcc_line, dropLineBody_append body rest h, rcc_cons_ne '\n' rest (by decide)]
  · rw [rcc_line, dropLineBody_of_no_newline body h]
    simp [remove_csharp_comments]
  · simp [remove_csharp_comments, dropLineBody, hasClose, dropToClose]

theorem claim_C1_witness :
    '\n' ∉ (" note".toList) ∧
    remove_csharp_comments ('/' :: '/' :: (" note".toList ++ '\n' :: "b();".toList)) =
      '\n' :: remove_csharp_comments ("b();".toList) :=
  ⟨by decide, (claim_C1 (" note".toList) ("b();".toList) (by decide)).1⟩

/-- C2: the stripper is idempotent — stripping an already-stripped text is
a no-op. -/
theorem claim_C2 (t : List Char) :
    remove_csharp_comments (remove_csharp_comments t) = remove_csharp_comments t :=
  rcc_idem t

/-- C3: a `/*` opener with no `*/` anywhere after it fails to match; the
scanner leaves the opener in place and moves on, and in particular
`"code(); /* never closed"` is returned unchanged. -/
theorem claim_C3 (rest : List Char) (h : hasClose rest = false) :
    remove_csharp_comments ('/' :: '*' :: rest) =
      '/' :: '*' :: remove_csharp_comments rest ∧
    remove_csharp_comments ("code(); /* never closed".toList) =
      "code(); /* never closed".toList := by
  refine ⟨rcc_noclose rest h, ?_⟩
  simp [remove_csharp_comments, dropLineBody, hasClose, dropToClose]

theorem claim_C3_witness :
    hasClose (" never closed".toList) = false ∧
    remove_csharp_comments ('/' :: '*' :: " never closed".toList) =
      '/' :: '*' :: remove_csharp_comments (" never closed".toList) :=
  ⟨by decide, (claim_C3 (" never closed".toList) (by decide)).1⟩

/-- C4: block-comment matching is non-greedy — each `/*` is matched to the
first following `*/`, so scanning resumes right after it and later block
comments are removed as separate spans; in particular
`"/* a */ code() /* b */"` becomes `" code() "`. -/
theorem claim_C4 (body rest : List Char) (h : hasClose body = false) :
    remove_csharp_comments ('/' :: '*' :: (body ++ '*' :: '/' :: rest)) =
      remove_csharp_comments rest ∧
    remove_csharp_comments ("/* a */ code() /* b */".toList) = " code() ".toList := by
  refine ⟨?_, ?_⟩
  · rw [rcc_close _ (hasClose_append_close body rest), dropToClose_append body rest h]
  · simp [remove_csharp_comments, dropLineBody, hasClose, dropToClose]

theorem claim_C4_witness :
    hasClose (" a ".toList) = false ∧
    remove_csharp_comments ('/' :: '*' :: (" a ".toList ++ '*' :: '/' :: " code()".toList)) =
      remove_csharp_comments (" code()".toList) :=
  ⟨by decide, (claim_C4 (" a ".toList) (" code()".toList) (by decide)).1⟩

/-- C5: an input containing no `//` and no `/*` is returned exactly;
moreover the output is always a subsequence of the input, so every
character that survives is unchanged and in its original relative
order. -/
theorem claim_C5 (t : List Char) (h : noMarker t = true) :
    remove_csharp_comments t = t ∧
    ∀ u : List Char, List.Sublist (remove_csharp_comments u) u :=
  ⟨rcc_of_cleanB t (noMarker_cleanB t h), rcc_sublist⟩

theorem claim_C5_witness :
    noMarker ("int x = 1; (* not a marker *)\n".toList) = true ∧
    remove_csharp_comments ("int x = 1; (* not a marker *)\n".toList) =
      "int x = 1; (* not a marker *)\n".toList :=
  ⟨by decide, (claim_C5 ("int x = 1; (* not a marker *)\n".toList) (by decide)).1⟩

/-- C10: text after an unterminated `/*` is not protected — a later line
comment is still removed: stripping `"/* open\n// inner"` yields
`"/* open\n"`. -/
theorem claim_C10 :
    remove_csharp_comments ("/* open\n// inner".toList) = "/* open\n".toList := by
  simp [remove_csharp_comments, dropLineBody, hasClose, dropToClose]

/-- C6: the driver writes a file only when the stripped text differs from
the original.  A file whose stripped text equals its content produces only
the progress message — no write and no `makedirs` call — and conversely a
write or `makedirs` event can only occur for a file whose read succeeded
and whose stripped text differs. -/
theorem claim_C6 :
    (∀ (m : Bool) (e : FileEntry) (c : List Char), e.isCs = true →
        e.readResult = some c → remove_csharp_comments c = c →
        process_file m e = some ([FileEvent.processedMsg], 1, 0)) ∧
    (∀ (m : Bool) (e : FileEntry) (evs : List FileEvent) (a b : Nat),
        process_file m e = some (evs, a, b) →
        FileEvent.writeFile ∈ evs ∨ FileEvent.mkdirs ∈ evs →
        ∃ c, e.readResult = some c ∧ remove_csharp_comments c ≠ c) := by
  constructor
  · intro m e c hcs hr heq
    simp [process_file, hcs, hr, heq]
  · intro m e evs a b h hmem
    by_cases hcs : e.isCs
    · cases hr : e.readResult with
      | none =>
          rw [process_file, if_pos hcs, hr] at h
          simp only [Option.some.injEq, Prod.mk.injEq] at h
          rw [← h.1] at hmem
          simp at hmem
      | some c =>
          by_cases heq : remove_csharp_comments c = c
          · rw [process_file, if_pos hcs, hr] at h
            simp only [heq] at h
            simp at h
            rw [← h.1] at hmem
            simp at hmem
          · exact ⟨c, rfl, heq⟩
    · rw [process_file, if_neg hcs] at h
      simp only [Option.some.injEq, Prod.mk.injEq] at h
      rw [← h.1] at hmem
      simp at hmem

theorem claim_C6_witness :
    (⟨true, some ("int x;".toList), true, true⟩ : FileEntry).isCs = true ∧
    (⟨true, some ("int x;".toList), true, true⟩ : FileEntry).readResult =
      some ("int x;".toList) ∧
    remove_csharp_comments ("int x;".toList) = "int x;".toList ∧
    process_file true ⟨true, some ("int x;".toList), true, true⟩ =
      some ([FileEvent.processedMsg], 1, 0) := by
  have heq : remove_csharp_comments ("int x;".toList) = "int x;".toList := by
    simp [remove_csharp_comments]
  exact ⟨rfl, rfl, heq,
    claim_C6.1 true ⟨true, some ("int x;".toList), true, true⟩ ("int x;".toList)
      rfl rfl heq⟩

/-- C7 (counterexample): a per-file failure *can* propagate out of the
driver.  `os.makedirs` is called outside any `try` block, so in mirror
mode a directory-creation failure for a single changed file aborts the
whole walk before the summary: the run over this one-file list returns
`none` (no summary printed). -/
theorem claim_C7_counterexample :
    process_directory true [⟨true, some ("// x".toList), false, true⟩] = none := by
  simp [process_directory, walkFiles, process_file, remove_csharp_comments,
    dropLineBody]

/-- C7 (amended): per-file read and write failures are caught where they
occur and only skip that file, so the walk completes and prints its
summary provided no mirror-directory creation fails; in particular every
in-place run completes, and a mirror run completes whenever `makedirs`
succeeds for every entry. -/
theorem claim_C7_amended (m : Bool) (files : List FileEntry)
    (h : m = true → ∀ e ∈ files, e.mkdirOk = true) :
    (process_directory m files).isSome = true :=
  walkFiles_isSome m files h 0 0

theorem claim_C7_amended_witness :
    (true = true → ∀ e ∈ [(⟨true, none, true, false⟩ : FileEntry),
        ⟨true, some ("// x".toList), true, false⟩], e.mkdirOk = true) ∧
    (process_directory true [(⟨true, none, true, false⟩ : FileEntry),
        ⟨true, some ("// x".toList), true, false⟩]).isSome = true :=
  ⟨by decide, claim_C7_amended true
    [⟨true, none, true, false⟩, ⟨true, some ("// x".toList), true, false⟩]
    (by decide)⟩

/-- C8: `file_count` is incremented before the read is attempted, so the
reported scanned total equals the number of `.cs` entries the walk
visited, and an unreadable `.cs` file still contributes exactly one scan
(and no change). -/
theorem claim_C8 :
    (∀ (m : Bool) (files : List FileEntry) (fc pc : Nat),
        process_directory m files = some (fc, pc) →
        fc = (files.filter (fun e => e.isCs)).length) ∧
    (∀ (m : Bool) (e : FileEntry), e.isCs = true → e.readResult = none →
        process_file m e = some ([FileEvent.readErr], 1, 0)) := by
  constructor
  · intro m files fc pc h
    have := walkFiles_fst m files 0 0 fc pc h
    simpa using this
  · intro m e hcs hr
    simp [process_file, hcs, hr]

theorem claim_C8_witness :
    process_directory false [(⟨true, none, true, true⟩ : FileEntry)] = some (1, 0) ∧
    (1 : Nat) =
      ([(⟨true, none, true, true⟩ : FileEntry)].filter (fun e => e.isCs)).length ∧
    process_file false ⟨true, none, true, true⟩ = some ([FileEvent.readErr], 1, 0) := by
  have hrun : process_directory false [(⟨true, none, true, true⟩ : FileEntry)] =
      some (1, 0) := by
    simp [process_directory, walkFiles, process_file]
  exact ⟨hrun,
    claim_C8.1 false [⟨true, none, true, true⟩] 1 0 hrun,
    claim_C8.2 false ⟨true, none, true, true⟩ rfl rfl⟩

/-- C9: `processed_count` is incremented as soon as the stripped text
differs, before any write is attempted, so a changed file whose write
fails still counts as changed: its step yields the change increment with a
write-error report and no successful write, and a one-file in-place run
with a failing write still reports `(1, 1)`. -/
theorem claim_C9 :
    (∀ (m : Bool) (e : FileEntry) (c : List Char), e.isCs = true →
        e.readResult = some c → remove_csharp_comments c ≠ c →
        e.writeOk = false → (m = true → e.mkdirOk = true) →
        ∃ evs, process_file m e = some (evs, 1, 1) ∧
          FileEvent.writeFile ∉ evs ∧ FileEvent.writeErr ∈ evs) ∧
    (∀ (e : FileEntry) (c : List Char), e.isCs = true →
        e.readResult = some c → remove_csharp_comments c ≠ c →
        e.writeOk = false →
        process_directory false [e] = some (1, 1)) := by
  constructor
  · intro m e c hcs hr heq hw hmk
    by_cases hm : m
    · have hmko : e.mkdirOk = true := hmk hm
      refine ⟨[FileEvent.mkdirs, FileEvent.writeErr, FileEvent.processedMsg], ?_, ?_, ?_⟩
      · simp [process_file, hcs, hr, heq, hm, hmko, hw]
      · simp
      · simp
    · refine ⟨[FileEvent.writeErr, FileEvent.processedMsg], ?_, ?_, ?_⟩
      · simp [process_file, hcs, hr, heq, hm, hw]
      · simp
      · simp
  · intro e c hcs hr heq hw
    simp [process_directory, walkFiles, process_file, hcs, hr, heq, hw]

theorem claim_C9_witness :
    remove_csharp_comments ("// x".toList) ≠ "// x".toList ∧
    process_directory false [(⟨true, some ("// x".toList), true, false⟩ : FileEntry)] =
      some (1, 1) := by
  have heq : remove_csharp_comments ("// x".toList) ≠ "// x".toList := by
    simp [remove_csharp_comments, dropLineBody]
  exact ⟨heq,
    claim_C9.2 ⟨true, some ("// x".toList), true, false⟩ ("// x".toList)
      rfl rfl heq rfl⟩

end FireNet
